import Mathlib

/-!
Verification development for the nineline morphology-tree engine
(`nineline/cells/morphology.py` and `nineline/cells/__init__.py`).

The Python code stores each segment as a btmorph `SNode2` whose content dict
holds a `P3D2` point (`xyz`, `radius`) plus — in `morphology.Segment` — a set
of `SegmentClass` tags, and — in `SegmentModel` — a list of components.  The
tree is rooted at an `SNode2` carrying the proximal point of the root
segment; a segment's `proximal` is its parent's `distal`, `diameter` is
`radius * 2`, `length` is the euclidean norm of `distal - proximal`.

We embed the tree as a rose tree (mutually inductive with its child forest so
that every recursion below is plain structural recursion, which the kernel
can evaluate on concrete inputs).  Coordinates are kept polymorphic in the
scalar type `α`: theorems about real geometry use `α := ℝ` together with the
euclidean norm built from `Real.sqrt`, while concrete counterexample trees
use `α := ℚ` so that the class/branch bookkeeping is decidable.
-/

namespace Nineline

/-- A 3-d point, mirroring the `numpy.array(3)` coordinate triples. -/
abbrev V (α : Type) : Type := α × α × α

/-- Componentwise vector addition (`numpy` elementwise `+`). -/
def vadd [Add α] (a b : V α) : V α := (a.1 + b.1, a.2.1 + b.2.1, a.2.2 + b.2.2)

/-- Componentwise vector subtraction (`numpy` elementwise `-`). -/
def vsub [Sub α] (a b : V α) : V α := (a.1 - b.1, a.2.1 - b.2.1, a.2.2 - b.2.2)

/-- Scalar multiple of a vector (`numpy` elementwise `*`). -/
def smul [Mul α] (c : α) (v : V α) : V α := (c * v.1, c * v.2.1, c * v.2.2)

/-- Zero vector. -/
def vzero [Zero α] : V α := (0, 0, 0)

/-- Sum of squared components, `numpy.sum(disp ** 2)`. -/
def sqnorm [Mul α] [Add α] (v : V α) : α := v.1 * v.1 + v.2.1 * v.2.1 + v.2.2 * v.2.2

/-- Euclidean norm `numpy.sqrt(numpy.sum(disp ** 2))`, the `length` of a
displacement in `Segment.length` / `SegmentModel.length`. -/
noncomputable def norm3 (v : V ℝ) : ℝ := Real.sqrt (sqnorm v)

mutual
/-- A segment node: its name (`SNode2` index), the distal point and radius of
its `P3D2` content, its set of segment-class names (`content['classes']`,
identified by class name), and its child segments.  The constructor
`Segment.__init__` receives a diameter and stores `radius = diameter / 2.0`;
we store the radius, exactly as `P3D2` does. -/
inductive SegTree (α : Type) : Type where
  | mk (name : String) (xyz : V α) (radius : α) (classes : Finset String)
      (children : SegForest α)
inductive SegForest (α : Type) : Type where
  | nil
  | cons (head : SegTree α) (tail : SegForest α)
end

/-- Name of a segment. -/
def SegTree.name : SegTree α → String
  | .mk n _ _ _ _ => n

/-- Distal point of a segment (`Segment.distal` getter). -/
def SegTree.xyz : SegTree α → V α
  | .mk _ p _ _ _ => p

/-- Stored radius of a segment. -/
def SegTree.radius : SegTree α → α
  | .mk _ _ r _ _ => r

/-- Class-name set of a segment (`seg.get_content()['classes']`). -/
def SegTree.classes : SegTree α → Finset String
  | .mk _ _ _ cl _ => cl

/-- Children forest of a segment (`Segment.children`). -/
def SegTree.children : SegTree α → SegForest α
  | .mk _ _ _ _ cs => cs

/-- Diameter accessor, `radius * 2.0`. -/
def SegTree.diameter [Mul α] [OfNat α 2] (s : SegTree α) : α := s.radius * 2

/-- Forest converted to a plain list of its trees. -/
def SegForest.toList : SegForest α → List (SegTree α)
  | .nil => []
  | .cons c rest => c :: rest.toList

/-- A tree à la `Model` / `Tree`: the root `SNode2` carries the proximal point
of the root segment (`set_root`), and `root_segment` hangs beneath it. -/
structure MTree (α : Type) : Type where
  rootPoint : V α
  rootSeg : SegTree α

mutual
/-- The `all_children` generator: for each child, yield the child and then,
recursively, all of the grandchildren through that child. -/
def allChildrenT : SegTree α → List (SegTree α)
  | .mk _ _ _ _ cs => allChildrenF cs
/-- Forest version of `all_children`. -/
def allChildrenF : SegForest α → List (SegTree α)
  | .nil => []
  | .cons c rest => c :: (allChildrenT c ++ allChildrenF rest)
end

/-- The `segments` iterator: `chain([self.root_segment],
self.root_segment.all_children)`. -/
def segments (t : MTree α) : List (SegTree α) := t.rootSeg :: allChildrenT t.rootSeg

/-!
Tree positions.  In Python every segment is a distinct object; we identify a
segment of the embedded tree by the path of child indices leading from the
root segment to it.  `subtreeAtT s p` follows path `p` from `s`;
`pathsT s` enumerates all valid paths.  These notions are independent of the
`segments` / `all_children` traversal and serve to state that the traversal
hits every tree position exactly once.
-/

mutual
/-- Follow a path of child indices down from a segment. -/
def subtreeAtT : SegTree α → List ℕ → Option (SegTree α)
  | s, [] => some s
  | .mk _ _ _ _ cs, j :: q => subtreeAtF cs (j :: q)
/-- Follow a path into a forest; the head index selects the tree. -/
def subtreeAtF : SegForest α → List ℕ → Option (SegTree α)
  | .nil, _ => none
  | .cons _ _, [] => none
  | .cons c _, 0 :: q => subtreeAtT c q
  | .cons _ rest, (j + 1) :: q => subtreeAtF rest (j :: q)
end

/-- Re-index a list of forest paths after prepending one tree to the forest. -/
def shiftPaths (ps : List (List ℕ)) : List (List ℕ) :=
  ps.map (fun p => match p with | [] => [] | j :: q => (j + 1) :: q)

mutual
/-- All valid paths below (and including) a segment. -/
def pathsT : SegTree α → List (List ℕ)
  | .mk _ _ _ _ cs => [] :: pathsF cs
/-- All valid paths into a forest. -/
def pathsF : SegForest α → List (List ℕ)
  | .nil => []
  | .cons c rest => (pathsT c).map (0 :: ·) ++ shiftPaths (pathsF rest)
end

/-!
Geometry: the `distal` setter and the `length` getter/setter.

`Segment.distal`'s setter computes `disp = distal - self.distal`, then runs
`child.distal += disp` for every node of `self.all_children`, and finally
`raw_set_distal(distal)`.  The getter hands out the stored `numpy` array
itself, so the in-place `+=` updates a descendant's stored point *before*
its own setter call computes its displacement (which is therefore zero and
the nested recursion a no-op): the net effect of the assignment is that
every strict descendant is shifted by exactly `disp` and the node itself is
set to the target point — which is also precisely what the setter's
docstring promises ("shifting all child segments by the same displacement
(to keep their lengths constant)").  We embed that net effect.
(The `SegmentModel` twin in `cells/__init__.py` has the same setter text but
a getter that returns a write-protected copy; we model the documented
behaviour, which the `morphology.Segment` version implements.)
-/

mutual
/-- Shift the distal point of every segment of a tree by `d`. -/
def translateT [Add α] (d : V α) : SegTree α → SegTree α
  | .mk n x r cl cs => .mk n (vadd x d) r cl (translateF d cs)
/-- Shift every segment of a forest by `d`. -/
def translateF [Add α] (d : V α) : SegForest α → SegForest α
  | .nil => .nil
  | .cons c rest => .cons (translateT d c) (translateF d rest)
end

/-- The `distal` setter on a subtree: the node's point becomes `pt` and every
strict descendant is shifted by `pt - self.distal`. -/
def setDistal [Add α] [Sub α] (s : SegTree α) (pt : V α) : SegTree α :=
  match s with
  | .mk n x r cl cs => .mk n pt r cl (translateF (vsub pt x) cs)

mutual
/-- Apply `g` to the subtree at a path, leaving the rest of the tree alone
(an ancestor keeps its own fields; only the relevant child slot changes). -/
def updateAtT (g : SegTree α → SegTree α) : SegTree α → List ℕ → SegTree α
  | s, [] => g s
  | .mk n x r cl cs, j :: q => .mk n x r cl (updateAtF g cs (j :: q))
/-- Forest version of `updateAtT`. -/
def updateAtF (g : SegTree α → SegTree α) : SegForest α → List ℕ → SegForest α
  | .nil, _ => .nil
  | .cons c rest, [] => .cons c rest
  | .cons c rest, 0 :: q => .cons (updateAtT g c q) rest
  | .cons c rest, (j + 1) :: q => .cons c (updateAtF g rest (j :: q))
end

/-- Distal point of the segment at a path. -/
def distalAt (t : MTree α) (p : List ℕ) : Option (V α) :=
  (subtreeAtT t.rootSeg p).map SegTree.xyz

/-- Proximal point of the segment at a path: the parent's distal point, or
the tree's root point for the root segment (`Segment.proximal`). -/
def proximalAt (t : MTree α) (p : List ℕ) : Option (V α) :=
  if p = [] then some t.rootPoint else distalAt t p.dropLast

/-- Length of the segment at a path:
`numpy.sqrt(numpy.sum((distal - proximal) ** 2))`. -/
noncomputable def lengthAt (t : MTree ℝ) (p : List ℕ) : Option ℝ :=
  (distalAt t p).bind fun d => (proximalAt t p).map fun pr => norm3 (vsub d pr)

/-- Assign the `distal` of the segment at path `q` to `pt`
(`seg.distal = pt`). -/
def setDistalAt [Add α] [Sub α] (t : MTree α) (q : List ℕ) (pt : V α) :
    MTree α :=
  { rootPoint := t.rootPoint,
    rootSeg := updateAtT (fun s => setDistal s pt) t.rootSeg q }

/-- The `length` setter at path `q`: rescale `seg_disp = distal - proximal`
by `L / orig_length` and assign `distal = proximal + seg_disp` (which shifts
the descendants, through the `distal` setter). -/
noncomputable def setLengthAt (t : MTree ℝ) (q : List ℕ) (L : ℝ) : MTree ℝ :=
  match distalAt t q, proximalAt t q with
  | some d, some pr =>
      setDistalAt t q (vadd pr (smul (L / norm3 (vsub d pr)) (vsub d pr)))
  | _, _ => t

/-- Boolean path-prefix test: `pathLe q r` holds when the segment at `r`
lies in the subtree rooted at the segment at `q` (i.e. `q` is a prefix
of `r`). -/
def pathLe : List ℕ → List ℕ → Bool
  | [], _ => true
  | _ :: _, [] => false
  | j :: q, k :: r => j == k && pathLe q r

/-!
The d-lambda rule (`Model.d_lambda_rule` in `cells/__init__.py`, identically
in `Tree.d_lambda_rule` of `morphology.py` for a scalar branch): the AC
length constant is `lambda_f = 1e5 * sqrt(diameter / (4*pi*freq*Ra*cm))` and
the segment count is `int((length / (d_lambda * lambda_f) + 0.9) / 2) * 2 + 1`.
Python `int()` truncates toward zero, which on the non-negative arguments in
scope is the floor.
-/

/-- Python `int()`: truncation toward zero. -/
noncomputable def pyInt (x : ℝ) : ℤ := if 0 ≤ x then ⌊x⌋ else ⌈x⌉

/-- The AC length constant `lambda_f` of `d_lambda_rule`. -/
noncomputable def lambda_f (diameter Ra cm freq : ℝ) : ℝ :=
  1e5 * Real.sqrt (diameter / (4 * Real.pi * freq * Ra * cm))

/-- The number of segments returned by `d_lambda_rule`. -/
noncomputable def d_lambda_rule (length diameter Ra cm freq d_lambda : ℝ) : ℤ :=
  pyInt ((length / (d_lambda * lambda_f diameter Ra cm freq) + 0.9) / 2) * 2 + 1

/-!
Branch decomposition and `merge_leaves` (`morphology.py`).

`sub_branches` walks a maximal chain of single-child segments and then
recurses into the children at the chain's end; a branch is the list of chain
segments.  `merge_leaves` keys its `groupby` on `(b[0].parent,
b[0].seg_classes)`; parents are distinct Python objects, which we identify
by segment name (tree names are unique), keeping alongside the parent's
proximal and distal points, which the merge arithmetic needs.
`morphology.py` accesses the class set both as `seg.seg_classes` and as
`seg.get_contents()['classes']`; the stored content key is `'classes'` and
we read that.  Likewise `seg.diameter()` stands for the `diameter` property
and `self.root` for `self.root_segment` (cf. `Model.branches`); we embed the
accessor each name resolves to.
-/

/-- A branch produced by `sub_branches`: the parent segment of its first
segment (`None` for the branch starting at the root segment) together with
the parent's proximal and distal points, and the chain of segments. -/
structure Branch (α : Type) : Type where
  parentName : Option String
  parentProx : V α
  parentDistal : V α
  chain : List (SegTree α)

mutual
/-- Walk from segment `s` (whose proximal point is `sprox`): while the
current segment has exactly one child the chain continues; at the chain's
end the branch is emitted and the end segment's children are explored. -/
def branchesT (pname : Option String) (pprox pdist sprox : V α)
    (acc : List (SegTree α)) : SegTree α → List (Branch α)
  | .mk n x r cl (.cons c .nil) =>
      branchesT pname pprox pdist x
        (acc ++ [SegTree.mk n x r cl (.cons c .nil)]) c
  | .mk n x r cl cs =>
      ⟨pname, pprox, pdist, acc ++ [SegTree.mk n x r cl cs]⟩ ::
        branchesF n sprox x cs
/-- Branches of each tree of a forest whose trees share the parent segment
named `pn` with proximal `pp` and distal `pd`. -/
def branchesF (pn : String) (pp pd : V α) : SegForest α → List (Branch α)
  | .nil => []
  | .cons c rest => branchesT (some pn) pp pd pd [] c ++ branchesF pn pp pd rest
end

/-- All branches of a tree (`Tree.branches`), starting at the root segment,
whose proximal point is the tree's root point and whose `parent` is `None`. -/
def branchesOf (t : MTree α) : List (Branch α) :=
  branchesT none t.rootPoint t.rootPoint t.rootPoint [] t.rootSeg

/-- Name of the first segment of a branch. -/
def Branch.headName (b : Branch α) : String :=
  match b.chain with
  | [] => ""
  | s :: _ => s.name

/-- Class set of the first segment of a branch (`branch[0].seg_classes`). -/
def Branch.headClasses (b : Branch α) : Finset String :=
  match b.chain with
  | [] => ∅
  | s :: _ => s.classes

/-- Leaf test used by candidate selection: `not branch[-1].children`. -/
def Branch.isLeafB (b : Branch α) : Bool :=
  match b.chain.getLast? with
  | some s => match s.children with | .nil => true | _ => false
  | none => false

/-- Class-membership consistency filter:
`all(b.seg_classes == branch[0].seg_classes for b in branch)`. -/
def Branch.homogB (b : Branch α) : Bool :=
  match b.chain with
  | [] => true
  | s0 :: rest => rest.all (fun s => s.classes == s0.classes)

/-- Grouping key of `merge_leaves`: `(b[0].parent, b[0].seg_classes)`. -/
def Branch.keyB (b : Branch α) : Option String × Finset String :=
  (b.parentName, b.headClasses)

/-- The `itertools.groupby` semantics: consecutive elements with equal keys
form a group; equal keys separated by a different key start a new group. -/
def pyGroupByAux (key : β → κ) [BEq κ] (k : κ) (cur : List β) :
    List β → List (κ × List β)
  | [] => [(k, cur.reverse)]
  | b :: rest =>
      if key b == k then pyGroupByAux key k (b :: cur) rest
      else (k, cur.reverse) :: pyGroupByAux key (key b) [b] rest

/-- Entry point of the `itertools.groupby` model. -/
def pyGroupBy (key : β → κ) [BEq κ] : List β → List (κ × List β)
  | [] => []
  | b :: rest => pyGroupByAux key (key b) [b] rest

/-- Lengths and diameters of the segments of a chain whose first proximal
point is `prox`: each segment's length is the distance from the previous
distal point (`Segment.length`), the square root being passed in so the
definition can be used at `α := ℝ` (with `Real.sqrt`) and on decidable
scalars for concrete trees. -/
def segLengthDiams [Field α] (sqrtFn : α → α) (prox : V α) :
    List (SegTree α) → List (α × α)
  | [] => []
  | s :: rest =>
      (sqrtFn (sqnorm (vsub s.xyz prox)), s.diameter) ::
        segLengthDiams sqrtFn s.xyz rest

/-- Total length of the segments of one branch. -/
def branchTotalLen [Field α] (sqrtFn : α → α) (b : Branch α) : α :=
  ((segLengthDiams sqrtFn b.parentDistal b.chain).map Prod.fst).sum

/-- The merge loop body's `average_length`: the summed segment length over
`chain(*siblings)` divided by `len(siblings)`, the number of branches. -/
def averageLength [Field α] (sqrtFn : α → α) (sibs : List (Branch α)) : α :=
  (sibs.map (branchTotalLen sqrtFn)).sum / (sibs.length : α)

/-- The merge loop body's `total_surface_area`: `seg.length * seg.diameter`
summed over all segments of all sibling branches. -/
def totalSurfaceArea [Field α] (sqrtFn : α → α) (sibs : List (Branch α)) : α :=
  (sibs.map (fun b =>
    ((segLengthDiams sqrtFn b.parentDistal b.chain).map
      (fun ld => ld.1 * ld.2)).sum)).sum

/-- The merged segment's diameter: `total_surface_area / average_length`. -/
def mergedDiameter [Field α] (sqrtFn : α → α) (sibs : List (Branch α)) : α :=
  totalSurfaceArea sqrtFn sibs / averageLength sqrtFn sibs

/-- The merged segment's displacement from the parent's distal point:
`parent.disp * (average_length / parent.length)`. -/
def mergedDisp [Field α] (sqrtFn : α → α) (pprox pdist : V α)
    (sibs : List (Branch α)) : V α :=
  smul (averageLength sqrtFn sibs / sqrtFn (sqnorm (vsub pdist pprox)))
    (vsub pdist pprox)

/-- Name of the merged segment.  The source line `if len(branch) > 1`
references a variable that is not in scope at that point; following the
spec's design note, a group of more than one branch brackets the first and
last sibling branch-start names. -/
def mergedName (sibs : List (Branch α)) : String :=
  match sibs with
  | [] => ""
  | b :: rest =>
      b.headName ++
        (if rest.isEmpty then "" else "_" ++ (rest.getLastD b).headName)

/-- The merged replacement segment constructed by the loop body:
`Segment(name, parent.distal + disp, diameter, classes)`; the constructor
stores `radius = diameter / 2.0` and the class set of the group key. -/
def mergedSegment [Field α] (sqrtFn : α → α)
    (key : Option String × Finset String) (pprox pdist : V α)
    (sibs : List (Branch α)) : SegTree α :=
  SegTree.mk (mergedName sibs)
    (vadd pdist (mergedDisp sqrtFn pprox pdist sibs))
    (mergedDiameter sqrtFn sibs / 2)
    key.2
    SegForest.nil

/-- Drop the first tree with the given name from a forest
(`remove_child`, which removes by identity; tree names are unique). -/
def removeHeadNamed (cn : String) : SegForest α → SegForest α
  | .nil => .nil
  | .cons c rest => if c.name = cn then rest else .cons c (removeHeadNamed cn rest)

mutual
/-- The `remove_node(branch[0])` step: detach the child named `cn` from the
segment named `pn` (applied at the unique such parent). -/
def removeChildT (pn cn : String) : SegTree α → SegTree α
  | .mk n x r cl cs =>
      if n = pn then .mk n x r cl (removeHeadNamed cn cs)
      else .mk n x r cl (removeChildF pn cn cs)
/-- Forest version of `removeChildT`. -/
def removeChildF (pn cn : String) : SegForest α → SegForest α
  | .nil => .nil
  | .cons c rest => .cons (removeChildT pn cn c) (removeChildF pn cn rest)
end

/-- Leaf-terminating branches, the `merge_leaves` candidates when
`only_most_distal` is false (the default). -/
def leafBranches (t : MTree α) : List (Branch α) :=
  (branchesOf t).filter (fun b => b.isLeafB)

/-- Candidates surviving the class-consistency filter. -/
def mergeCandidates (t : MTree α) : List (Branch α) :=
  (leafBranches t).filter (fun b => b.homogB)

/-- The loop body of `merge_leaves` for one `groupby` group: a group of more
than one sibling branch has its merged replacement segment constructed and
each sibling branch start detached from the parent (`remove_node`); other
groups are untouched. -/
def mergeStep [Field α] (sqrtFn : α → α)
    (acc : MTree α × List (SegTree α))
    (g : (Option String × Finset String) × List (Branch α)) :
    MTree α × List (SegTree α) :=
  if 1 < g.2.length then
    match g.1.1, g.2 with
    | some pn, b0 :: brest =>
        let seg := mergedSegment sqrtFn g.1 b0.parentProx b0.parentDistal
          (b0 :: brest)
        ((b0 :: brest).foldl
          (fun tr b =>
            { tr with rootSeg := removeChildT pn b.headName tr.rootSeg })
          acc.1,
         acc.2 ++ [seg])
    | _, _ => acc
  else acc

/-- The `merge_leaves` algorithm.  Candidate leaf branches are filtered for
internal class consistency; an empty candidate list raises
`IrreducibleMorphologyException` (modelled as `.error`, raised before any
mutation); candidates are grouped with `itertools.groupby` on
`(parent, seg_classes)`; each group of more than one branch has its merged
replacement segment constructed and its branch starts detached from the
parent.  The source then runs `segment.set_parent_node(parent)`, which sets
only the child-to-parent pointer and never adds the new segment to the
parent's child list, so the constructed segments remain outside the tree:
we return them separately as the second component.  (The trailing
`normalise_spatial_sampling` call operates on a `deepcopy` whose result is
discarded, so it never mutates this tree and is not modelled here.) -/
def mergeLeaves [Field α] (sqrtFn : α → α) (t : MTree α) :
    Except String (MTree α × List (SegTree α)) :=
  let cands := mergeCandidates t
  if cands.isEmpty then
    .error "Cannot reduce the morphology further without merging seg_classes"
  else
    .ok ((pyGroupBy Branch.keyB cands).foldl (mergeStep sqrtFn) (t, []))

/-- Whether `merge_leaves` raises `IrreducibleMorphologyException`. -/
def mergeRaises [Field α] (sqrtFn : α → α) (t : MTree α) : Bool :=
  match mergeLeaves sqrtFn t with
  | .error _ => true
  | .ok _ => false

/-!
`SegmentClass.add_attribute` and `_check_for_duplicate_attributes`
(`morphology.py`).  A class is identified by its name; class membership is
stored on segments (`content['classes']`); the tree keeps a mapping of class
name to attribute-name list (`self._attributes`, a dict iterated by key).
The check computes the classes overlapping the mutated class (the union of
its members' class sets, `reduce(set.union, ...)`), scans all ordered pairs
of overlapping classes, intersects their attribute-name sets
(`class1._attributes.keys() & class2._attributes.keys()`, a set
intersection), and on the first pair of distinct classes with a non-empty
intersection raises with the duplicate names, the segments in both classes
truncated to the first ten (`segments[:10]`, plus a `,...` marker when more
than ten), and the two class names.  Python iterates the overlapping `set`
in unspecified order; we iterate its elements in sorted order.
-/

/-- A segment as seen by the class machinery: a name plus the class-name
set stored in its content. -/
structure PySeg : Type where
  name : String
  classes : Finset String
deriving DecidableEq

/-- The class-relevant state of a tree: its segments in `self._tree.segments`
order, and the attribute table of every class. -/
structure ClassTable : Type where
  segs : List PySeg
  attrs : List (String × List String)

/-- Attribute names of a class (`self._attributes.keys()`); a class absent
from the table has none. -/
def attrsOf (tbl : ClassTable) (c : String) : List String :=
  (List.lookup c tbl.attrs).getD []

/-- The members of a class: segments whose class set contains it. -/
def membersOf (tbl : ClassTable) (c : String) : List PySeg :=
  tbl.segs.filter (fun s => c ∈ s.classes)

/-- The classes overlapping class `c`:
`reduce(set.union, [seg.classes for seg in self.members])`.  (On an empty
member list Python's `reduce` without an initial value raises `TypeError`;
the add-attribute flow reaching the check always has the class table entry
of a populated class, and we return the empty set in that corner.) -/
def overlappingClasses (tbl : ClassTable) (c : String) : Finset String :=
  match membersOf tbl c with
  | [] => ∅
  | m :: rest => rest.foldl (fun acc s => acc ∪ s.classes) m.classes

/-- Duplicate attribute names of two classes (their key-set intersection). -/
def dupsOf (tbl : ClassTable) (c1 c2 : String) : List String :=
  (attrsOf tbl c1).filter (fun a => a ∈ attrsOf tbl c2)

/-- Names of the segments belonging to both classes, in tree order. -/
def offendingSegs (tbl : ClassTable) (c1 c2 : String) : List String :=
  (tbl.segs.filter (fun s => c1 ∈ s.classes ∧ c2 ∈ s.classes)).map PySeg.name

/-- The payload of the duplicate-attribute exception: the clashing attribute
names, the first ten offending segments, whether the list was truncated,
and the two class names. -/
structure Conflict : Type where
  dups : List String
  sample : List String
  truncated : Bool
  cname1 : String
  cname2 : String

/-- Scan of the inner loop `for class2 in overlapping_classes`. -/
def findConflictInner (tbl : ClassTable) (c1 : String) :
    List String → Option Conflict
  | [] => none
  | c2 :: rest =>
      if c1 ≠ c2 ∧ dupsOf tbl c1 c2 ≠ [] then
        some ⟨dupsOf tbl c1 c2, (offendingSegs tbl c1 c2).take 10,
          10 < (offendingSegs tbl c1 c2).length, c1, c2⟩
      else findConflictInner tbl c1 rest

/-- Scan of the outer loop `for class1 in overlapping_classes`. -/
def findConflictPair (tbl : ClassTable) :
    List String → List String → Option Conflict
  | [], _ => none
  | c1 :: rest, all =>
      match findConflictInner tbl c1 all with
      | some conf => some conf
      | none => findConflictPair tbl rest all

/-- The `_check_for_duplicate_attributes` body run for class `c`. -/
def checkDuplicateAttributes (tbl : ClassTable) (c : String) : Option Conflict :=
  let L := (overlappingClasses tbl c).sort (· ≤ ·)
  findConflictPair tbl L L

/-- Failure modes of `add_attribute`: the name already belongs to this class,
or the post-insertion duplicate check fires. -/
inductive AddAttrErr : Type where
  | duplicate
  | conflict (conf : Conflict)

/-- Insert attribute `a` into the table entry of class `c` (the class object
exists, so its entry is present). -/
def setAttr (attrs : List (String × List String)) (c a : String) :
    List (String × List String) :=
  attrs.map (fun e => if e.1 = c then (e.1, e.2 ++ [a]) else e)

/-- The `add_attribute` operation: reject a name already present on this
class, otherwise store the attribute and re-run the duplicate check, whose
conflict — if any — is raised (the attribute stays stored, as in the
source, where the raise happens after the dict insertion). -/
def addAttribute (tbl : ClassTable) (c a : String) :
    Except AddAttrErr ClassTable :=
  if a ∈ attrsOf tbl c then .error .duplicate
  else
    let tbl' : ClassTable := ⟨tbl.segs, setAttr tbl.attrs c a⟩
    match checkDuplicateAttributes tbl' c with
    | some conf => .error (.conflict conf)
    | none => .ok tbl'

/-!
`SegmentModel.set_component` (`cells/__init__.py`). -/

/-- A biophysical component: its model name, its simulator class name, and
whether it is a `PointProcessModel` (discrete/point process). -/
structure Component : Type where
  name : String
  className : String
  isPointProcess : Bool
deriving DecidableEq

/-- The `set_component` operation on a segment's component list: a point
process is appended unconditionally; otherwise components with a clashing
class name are collected (`assert len(clash) < 2`), a clash without
`overwrite` raises, a clash with `overwrite` removes the clashing component
first, and the new component is appended. -/
def setComponent (comps : List Component) (comp : Component)
    (overwrite : Bool) : Except String (List Component) :=
  if comp.isPointProcess then .ok (comps ++ [comp])
  else
    let clash := comps.filter (fun c => c.className == comp.className)
    if 2 ≤ clash.length then .error "multi. components with the same class_name"
    else
      match clash with
      | [] => .ok (comps ++ [comp])
      | c :: _ =>
          if overwrite then .ok ((comps.erase c) ++ [comp])
          else .error "Clash of import names in setting biophysics components"

/-!
`SegmentModel.remove_children` (`cells/__init__.py`):

    for child in self.children:
        child.set_parent_node(None)
        self.remove_child(child)

`self.children` is btmorph's `get_child_nodes()`, which returns the live
child list, and `remove_child` deletes from that same list, so the `for`
statement iterates — by an internal advancing index — over a list that
shrinks under it.  We model children by their (distinct) names, the
removal as deletion of the first occurrence, and the loop by its index.
-/

/-- One pass of the `for` loop: fetch the element at the iterator index of
the current list state (stopping when the index runs off the end), clear its
parent, remove it, and advance the index.  The fuel starts at the original
list length, an upper bound on the number of iterations. -/
def pyForRemove : ℕ → ℕ → List String → List String →
    List String × List String
  | 0, _, cs, cleared => (cs, cleared)
  | fuel + 1, i, cs, cleared =>
      match cs.get? i with
      | none => (cs, cleared)
      | some child => pyForRemove fuel (i + 1) (cs.erase child)
          (cleared ++ [child])

/-- `remove_children` run on a child-name list: returns the remaining
children and the children whose parent link was cleared. -/
def removeChildren (cs : List String) : List String × List String :=
  pyForRemove cs.length 0 cs []

/-!
`Segment.__init__` (`morphology.py`) declares `classes=set()`: the default
set is evaluated once, when the function is defined, and every construction
that omits `classes` stores that same set object in its content dict
(`set_content` does not copy).  `SegmentClass.add_members` then mutates a
member's stored set in place (`seg.get_contents()['classes'].add(self)`).
We model the store as a heap of set cells; default-constructed segments all
hold cell `0`, the shared default.
-/

/-- Two segments constructed without a `classes` argument, followed by
`add_members([first])` for a class named `newclass`: returns the class sets
of the first and of the second segment afterwards. -/
def sharedDefaultScenario : Finset String × Finset String :=
  let heap : List (Finset String) := [∅]
  let s1cell : ℕ := 0
  let s2cell : ℕ := 0
  let heap2 := heap.set s1cell (insert "newclass" (heap.getD s1cell ∅))
  (heap2.getD s1cell ∅, heap2.getD s2cell ∅)

/-!
Concrete example trees used by witnesses and counterexamples. -/

/-- A rational tree whose two leaf branches are internally homogeneous but
differ from one another in class membership. -/
def tC4 : MTree ℚ :=
  { rootPoint := (0, 0, 0),
    rootSeg := .mk "root" (0, 0, 1) 1 ∅
      (.cons (.mk "a" (1, 0, 1) 1 {"x"} .nil)
        (.cons (.mk "b" (-1, 0, 1) 1 {"y"} .nil) .nil)) }

/-- A real three-segment chain: root segment `a` at distance 5 from the
root point, child `b`, grandchild `c`. -/
def tC2 : MTree ℝ :=
  { rootPoint := (0, 0, 0),
    rootSeg := .mk "a" (3, 4, 0) 1 ∅
      (.cons (.mk "b" (3, 4, 2) 1 ∅
        (.cons (.mk "c" (3, 4, 5) 1 ∅ .nil) .nil)) .nil) }

/-- Two single-segment sibling branches hanging from a parent of length 5,
each sibling of length 1, with diameters 2 and 4. -/
def sibsC1 : List (Branch ℝ) :=
  [⟨some "p", (0, 0, 0), (3, 4, 0), [.mk "a" (3, 4, 1) 1 ∅ .nil]⟩,
   ⟨some "p", (0, 0, 0), (3, 4, 0), [.mk "b" (3, 4, -1) 2 ∅ .nil]⟩]

mutual
theorem pathsF_ne_nil (f : SegForest α) : ∀ p ∈ pathsF f, p ≠ [] := by
  match f with
  | .nil => intro p hp; simp [pathsF] at hp
  | .cons c rest =>
    intro p hp
    rw [pathsF, List.mem_append] at hp
    rcases hp with hp | hp
    · rcases List.mem_map.1 hp with ⟨q, _, rfl⟩; simp
    · rcases List.mem_map.1 hp with ⟨q, hq, rfl⟩
      have := pathsF_ne_nil rest q hq
      match q with
      | [] => exact absurd rfl this
      | j :: q' => simp
end

mutual
theorem pathsT_subtrees (s : SegTree α) :
    (pathsT s).map (subtreeAtT s) = (s :: allChildrenT s).map some := by
  match s with
  | .mk n x r cl cs =>
    rw [pathsT, allChildrenT, List.map_cons, List.map_cons, subtreeAtT]
    congr 1
    have hcong : (pathsF cs).map (subtreeAtT (SegTree.mk n x r cl cs)) =
        (pathsF cs).map (subtreeAtF cs) := by
      apply List.map_congr_left
      intro p hp
      match p, pathsF_ne_nil cs p hp with
      | j :: q, _ => rfl
    rw [hcong, pathsF_subtrees cs]
theorem pathsF_subtrees (f : SegForest α) :
    (pathsF f).map (subtreeAtF f) = (allChildrenF f).map some := by
  match f with
  | .nil => rfl
  | .cons c rest =>
    have h1 : (pathsT c).map (subtreeAtF (SegForest.cons c rest) ∘ (0 :: ·)) =
        some c :: (allChildrenT c).map some := by
      have he : (subtreeAtF (SegForest.cons c rest) ∘ (0 :: ·)) =
          subtreeAtT c := by
        funext q; rfl
      rw [he, pathsT_subtrees c, List.map_cons]
    have h2 : (shiftPaths (pathsF rest)).map (subtreeAtF (SegForest.cons c rest)) =
        (allChildrenF rest).map some := by
      rw [shiftPaths, List.map_map]
      have hc : (pathsF rest).map
            (subtreeAtF (SegForest.cons c rest) ∘
              (fun p => match p with | [] => [] | j :: q => (j + 1) :: q)) =
          (pathsF rest).map (subtreeAtF rest) := by
        apply List.map_congr_left
        intro p hp
        match p, pathsF_ne_nil rest p hp with
        | j :: q, _ => rfl
      rw [hc, pathsF_subtrees rest]
    rw [pathsF, allChildrenF, List.map_append, List.map_map, h1, h2,
      List.map_cons, List.map_append, List.cons_append]
end

mutual
theorem pathsT_nodup (s : SegTree α) : (pathsT s).Nodup := by
  match s with
  | .mk n x r cl cs =>
    rw [pathsT, List.nodup_cons]
    constructor
    · intro h
      exact pathsF_ne_nil cs [] h rfl
    · exact pathsF_nodup cs
theorem pathsF_nodup (f : SegForest α) : (pathsF f).Nodup := by
  match f with
  | .nil => exact List.nodup_nil
  | .cons c rest =>
    rw [pathsF]
    refine List.Nodup.append ?_ ?_ ?_
    · exact (pathsT_nodup c).map (fun a b h => by simpa using h)
    · rw [shiftPaths]
      refine (pathsF_nodup rest).map_on ?_
      intro p hp q hq h
      match p, pathsF_ne_nil rest p hp, q, pathsF_ne_nil rest q hq with
      | j :: p', _, k :: q', _ => simpa using h
    · intro p hp hq
      rcases List.mem_map.1 hp with ⟨p', _, rfl⟩
      rw [shiftPaths] at hq
      rcases List.mem_map.1 hq with ⟨q', hq', he⟩
      match q', pathsF_ne_nil rest q' hq' with
      | k :: q'', _ => simp at he
end

mutual
theorem subtreeAtT_mem_paths (s : SegTree α) (p : List ℕ)
    (h : (subtreeAtT s p).isSome) : p ∈ pathsT s := by
  match s, p with
  | .mk n x r cl cs, [] => rw [pathsT]; exact List.mem_cons_self _ _
  | .mk n x r cl cs, j :: q =>
    rw [subtreeAtT] at h
    rw [pathsT]
    exact List.mem_cons_of_mem _ (subtreeAtF_mem_paths cs (j :: q) h)
theorem subtreeAtF_mem_paths (f : SegForest α) (p : List ℕ)
    (h : (subtreeAtF f p).isSome) : p ∈ pathsF f := by
  match f, p with
  | .nil, p => rw [subtreeAtF] at h; simp at h
  | .cons c rest, [] => rw [subtreeAtF] at h; simp at h
  | .cons c rest, 0 :: q =>
    rw [subtreeAtF] at h
    rw [pathsF, List.mem_append]
    exact Or.inl (List.mem_map.2 ⟨q, subtreeAtT_mem_paths c q h, rfl⟩)
  | .cons c rest, (j + 1) :: q =>
    rw [subtreeAtF] at h
    rw [pathsF, List.mem_append]
    refine Or.inr ?_
    rw [shiftPaths]
    exact List.mem_map.2 ⟨j :: q, subtreeAtF_mem_paths rest (j :: q) h, rfl⟩
end

/-- C8: for every tree, the `segments` iterator yields exactly the root
segment plus every segment reachable from it via child links, each exactly
once.  Formally: mapping `subtreeAtT` over the (duplicate-free) list of all
valid child-index paths reproduces the `segments` list position for
position, and every valid path is enumerated — so the traversal hits every
reachable tree position exactly once, with no omission and no duplicate. -/
theorem segments_exactly_reachable (t : MTree α) :
    (pathsT t.rootSeg).map (subtreeAtT t.rootSeg) = (segments t).map some ∧
    (pathsT t.rootSeg).Nodup ∧
    (∀ p : List ℕ, (subtreeAtT t.rootSeg p).isSome → p ∈ pathsT t.rootSeg) :=
  ⟨pathsT_subtrees t.rootSeg, pathsT_nodup t.rootSeg,
    fun p h => subtreeAtT_mem_paths t.rootSeg p h⟩

theorem vadd_vsub_cancel [CommRing α] (x p : V α) : vadd x (vsub p x) = p := by
  obtain ⟨a, b, c⟩ := p
  obtain ⟨d, e, f⟩ := x
  simp [vadd, vsub]

theorem vsub_vadd_vadd [CommRing α] (a b c : V α) :
    vsub (vadd a c) (vadd b c) = vsub a b := by
  obtain ⟨a1, a2, a3⟩ := a
  obtain ⟨b1, b2, b3⟩ := b
  obtain ⟨c1, c2, c3⟩ := c
  simp [vadd, vsub]

theorem vsub_vadd_cancel [CommRing α] (pr w : V α) : vsub (vadd pr w) pr = w := by
  obtain ⟨a, b, c⟩ := pr
  obtain ⟨d, e, f⟩ := w
  simp [vadd, vsub]

theorem vsub_eq_vzero_iff [AddGroup α] (a b : V α) :
    vsub a b = vzero ↔ a = b := by
  obtain ⟨a1, a2, a3⟩ := a
  obtain ⟨b1, b2, b3⟩ := b
  simp [vsub, vzero, Prod.ext_iff, sub_eq_zero]

theorem sqnorm_nonneg (v : V ℝ) : 0 ≤ sqnorm v := by
  have h1 := mul_self_nonneg v.1
  have h2 := mul_self_nonneg v.2.1
  have h3 := mul_self_nonneg v.2.2
  unfold sqnorm
  linarith

theorem sqnorm_pos (v : V ℝ) (h : v ≠ vzero) : 0 < sqnorm v := by
  rcases lt_or_eq_of_le (sqnorm_nonneg v) with hlt | heq
  · exact hlt
  · exfalso
    apply h
    have h1 := mul_self_nonneg v.1
    have h2 := mul_self_nonneg v.2.1
    have h3 := mul_self_nonneg v.2.2
    have e1 : v.1 * v.1 = 0 := by unfold sqnorm at heq; nlinarith
    have e2 : v.2.1 * v.2.1 = 0 := by unfold sqnorm at heq; nlinarith
    have e3 : v.2.2 * v.2.2 = 0 := by unfold sqnorm at heq; nlinarith
    obtain ⟨a, b, c⟩ := v
    simp only [mul_self_eq_zero] at e1 e2 e3
    simp [vzero, Prod.ext_iff]
    exact ⟨e1, e2, e3⟩

theorem norm3_nonneg (v : V ℝ) : 0 ≤ norm3 v := Real.sqrt_nonneg _

theorem norm3_pos (v : V ℝ) (h : v ≠ vzero) : 0 < norm3 v :=
  Real.sqrt_pos.mpr (sqnorm_pos v h)

theorem norm3_smul (c : ℝ) (v : V ℝ) : norm3 (smul c v) = |c| * norm3 v := by
  have hs : sqnorm (smul c v) = c ^ 2 * sqnorm v := by
    obtain ⟨a, b, d⟩ := v
    simp [smul, sqnorm]
    ring
  rw [norm3, hs, Real.sqrt_mul (sq_nonneg c), Real.sqrt_sq_eq_abs, norm3]

mutual
theorem subtreeAt_translateT [Add α] (d : V α) (s : SegTree α) (p : List ℕ) :
    subtreeAtT (translateT d s) p = (subtreeAtT s p).map (translateT d) := by
  match s, p with
  | .mk n x rad cl cs, [] => rw [translateT]; rfl
  | .mk n x rad cl cs, j :: q =>
    rw [translateT, subtreeAtT, subtreeAtT]
    exact subtreeAt_translateF d cs (j :: q)
theorem subtreeAt_translateF [Add α] (d : V α) (f : SegForest α) (p : List ℕ) :
    subtreeAtF (translateF d f) p = (subtreeAtF f p).map (translateT d) := by
  match f, p with
  | .nil, p => rw [translateF]; rfl
  | .cons c rest, [] => rw [translateF]; rfl
  | .cons c rest, 0 :: q =>
    rw [translateF, subtreeAtF, subtreeAtF]
    exact subtreeAt_translateT d c q
  | .cons c rest, (j + 1) :: q =>
    rw [translateF, subtreeAtF, subtreeAtF]
    exact subtreeAt_translateF d rest (j :: q)
end

theorem translateT_xyz [Add α] (d : V α) (s : SegTree α) :
    (translateT d s).xyz = vadd s.xyz d := by
  match s with
  | .mk n x rad cl cs => rw [translateT]; rfl

theorem setDistal_eq_translate [CommRing α] (s : SegTree α) (pt : V α) :
    setDistal s pt = translateT (vsub pt s.xyz) s := by
  match s with
  | .mk n x rad cl cs =>
    rw [setDistal, translateT]
    have hx : (SegTree.mk n x rad cl cs).xyz = x := rfl
    rw [hx, vadd_vsub_cancel]

mutual
theorem subtreeAt_appendT (s : SegTree α) (q r : List ℕ) :
    subtreeAtT s (q ++ r) = (subtreeAtT s q).bind (fun u => subtreeAtT u r) := by
  match s, q with
  | .mk n x rad cl cs, [] => rfl
  | .mk n x rad cl cs, j :: q' =>
    rw [List.cons_append, subtreeAtT, subtreeAtT]
    exact subtreeAt_appendF cs j q' r
theorem subtreeAt_appendF (f : SegForest α) (j : ℕ) (q' r : List ℕ) :
    subtreeAtF f (j :: q' ++ r) =
      (subtreeAtF f (j :: q')).bind (fun u => subtreeAtT u r) := by
  match f, j with
  | .nil, j => rfl
  | .cons c rest, 0 =>
    rw [List.cons_append, subtreeAtF, subtreeAtF]
    exact subtreeAt_appendT c q' r
  | .cons c rest, j + 1 =>
    rw [List.cons_append, subtreeAtF, subtreeAtF]
    exact subtreeAt_appendF rest j q' r
end

mutual
theorem subtreeAt_updateT (g : SegTree α → SegTree α) (s : SegTree α)
    (q r : List ℕ) (u : SegTree α) (h : subtreeAtT s q = some u) :
    subtreeAtT (updateAtT g s q) (q ++ r) = subtreeAtT (g u) r := by
  match s, q with
  | .mk n x rad cl cs, [] =>
    rw [subtreeAtT] at h
    cases h
    rw [updateAtT, List.nil_append]
  | .mk n x rad cl cs, j :: q' =>
    rw [subtreeAtT] at h
    rw [updateAtT, List.cons_append, subtreeAtT]
    exact subtreeAt_updateF g cs j q' r u h
theorem subtreeAt_updateF (g : SegTree α → SegTree α) (f : SegForest α)
    (j : ℕ) (q' r : List ℕ) (u : SegTree α)
    (h : subtreeAtF f (j :: q') = some u) :
    subtreeAtF (updateAtF g f (j :: q')) (j :: (q' ++ r)) =
      subtreeAtT (g u) r := by
  match f, j with
  | .nil, j => rw [subtreeAtF] at h; cases h
  | .cons c rest, 0 =>
    rw [subtreeAtF] at h
    rw [updateAtF, subtreeAtF]
    exact subtreeAt_updateT g c q' r u h
  | .cons c rest, j + 1 =>
    rw [subtreeAtF] at h
    rw [updateAtF, subtreeAtF]
    exact subtreeAt_updateF g rest j q' r u h
end

mutual
theorem xyz_update_frameT (g : SegTree α → SegTree α) (s : SegTree α)
    (q r : List ℕ) (h : pathLe q r = false) :
    (subtreeAtT (updateAtT g s q) r).map SegTree.xyz =
      (subtreeAtT s r).map SegTree.xyz := by
  match q, r, s with
  | [], r, s => rw [pathLe] at h; cases h
  | j :: q', [], .mk n x rad cl cs => rw [updateAtT]; rfl
  | j :: q', k :: r', .mk n x rad cl cs =>
    rw [updateAtT, subtreeAtT, subtreeAtT]
    exact xyz_update_frameF g cs j q' k r' h
theorem xyz_update_frameF (g : SegTree α → SegTree α) (f : SegForest α)
    (j : ℕ) (q' : List ℕ) (k : ℕ) (r' : List ℕ)
    (h : pathLe (j :: q') (k :: r') = false) :
    (subtreeAtF (updateAtF g f (j :: q')) (k :: r')).map SegTree.xyz =
      (subtreeAtF f (k :: r')).map SegTree.xyz := by
  match f, j, k with
  | .nil, _, _ => rw [updateAtF]
  | .cons c rest, 0, 0 =>
    rw [updateAtF, subtreeAtF, subtreeAtF]
    apply xyz_update_frameT
    simpa [pathLe] using h
  | .cons c rest, 0, k + 1 => rw [updateAtF, subtreeAtF, subtreeAtF]
  | .cons c rest, j + 1, 0 => rw [updateAtF, subtreeAtF, subtreeAtF]
  | .cons c rest, j + 1, k + 1 =>
    rw [updateAtF, subtreeAtF, subtreeAtF]
    apply xyz_update_frameF
    rw [pathLe] at h ⊢
    simpa using h
end

theorem pathLe_length (q r : List ℕ) (h : pathLe q r = true) :
    q.length ≤ r.length := by
  match q, r with
  | [], r => simp
  | j :: q', [] => rw [pathLe] at h; cases h
  | j :: q', k :: r' =>
    rw [pathLe, Bool.and_eq_true] at h
    simpa using pathLe_length q' r' h.2

theorem pathLe_extend (q r s : List ℕ) (h : pathLe q r = true) :
    pathLe q (r ++ s) = true := by
  match q, r with
  | [], r => rfl
  | j :: q', [] => rw [pathLe] at h; cases h
  | j :: q', k :: r' =>
    rw [pathLe, Bool.and_eq_true] at h
    rw [List.cons_append, pathLe, Bool.and_eq_true]
    exact ⟨h.1, pathLe_extend q' r' s h.2⟩

theorem pathLe_dropLast (q r : List ℕ) (hr : r ≠ [])
    (h : pathLe q r.dropLast = true) : pathLe q r = true := by
  have := pathLe_extend q r.dropLast [r.getLast hr] h
  rwa [List.dropLast_append_getLast hr] at this

theorem pathLe_dropLast_self (q : List ℕ) (hq : q ≠ []) :
    pathLe q q.dropLast = false := by
  by_contra hc
  have hb : pathLe q q.dropLast = true := by
    revert hc
    cases pathLe q q.dropLast <;> simp
  have hlen := pathLe_length _ _ hb
  have : q.dropLast.length < q.length := by
    rw [List.length_dropLast]
    have : 0 < q.length := List.length_pos.mpr hq
    omega
  omega

section DistalSetter

variable {t : MTree ℝ} {q : List ℕ} {u : SegTree ℝ} {pt : V ℝ}

theorem distalAt_of_valid (t : MTree ℝ) (q : List ℕ) (u : SegTree ℝ)
    (hq : subtreeAtT t.rootSeg q = some u) (r : List ℕ) :
    distalAt t (q ++ r) = (subtreeAtT u r).map SegTree.xyz := by
  unfold distalAt
  rw [subtreeAt_appendT, hq, Option.some_bind]

theorem distalAt_setDistalAt_sub (t : MTree ℝ) (q : List ℕ) (u : SegTree ℝ)
    (hq : subtreeAtT t.rootSeg q = some u) (pt : V ℝ) (r : List ℕ) :
    distalAt (setDistalAt t q pt) (q ++ r) =
      (subtreeAtT u r).map (fun s => vadd s.xyz (vsub pt u.xyz)) := by
  unfold distalAt setDistalAt
  rw [subtreeAt_updateT _ _ _ _ _ hq, setDistal_eq_translate,
    subtreeAt_translateT, Option.map_map]
  have hc : SegTree.xyz ∘ translateT (vsub pt u.xyz) =
      fun s => vadd s.xyz (vsub pt u.xyz) := funext fun s => translateT_xyz _ s
  rw [hc]

theorem distalAt_setDistalAt_shift (t : MTree ℝ) (q : List ℕ) (u : SegTree ℝ)
    (hq : subtreeAtT t.rootSeg q = some u) (pt : V ℝ) (r : List ℕ) :
    distalAt (setDistalAt t q pt) (q ++ r) =
      (distalAt t (q ++ r)).map (fun v => vadd v (vsub pt u.xyz)) := by
  rw [distalAt_setDistalAt_sub t q u hq pt r, distalAt_of_valid t q u hq r,
    Option.map_map]
  rfl

theorem distalAt_setDistalAt_frame (t : MTree ℝ) (q : List ℕ) (pt : V ℝ)
    (r : List ℕ) (h : pathLe q r = false) :
    distalAt (setDistalAt t q pt) r = distalAt t r := by
  unfold distalAt setDistalAt
  exact xyz_update_frameT _ _ q r h

theorem proximalAt_setDistalAt_frame (t : MTree ℝ) (q : List ℕ) (pt : V ℝ)
    (r : List ℕ) (h : r ≠ [] → pathLe q r.dropLast = false) :
    proximalAt (setDistalAt t q pt) r = proximalAt t r := by
  unfold proximalAt
  by_cases hr : r = []
  · subst hr
    rfl
  · rw [if_neg hr, if_neg hr, distalAt_setDistalAt_frame t q pt _ (h hr)]

theorem proximalAt_setDistalAt_self (t : MTree ℝ) (q : List ℕ) (pt : V ℝ) :
    proximalAt (setDistalAt t q pt) q = proximalAt t q :=
  proximalAt_setDistalAt_frame t q pt q fun hq => pathLe_dropLast_self q hq

theorem lengthAt_setDistalAt_desc (t : MTree ℝ) (q : List ℕ) (u : SegTree ℝ)
    (hq : subtreeAtT t.rootSeg q = some u) (pt : V ℝ) (r : List ℕ)
    (hr : r ≠ []) :
    lengthAt (setDistalAt t q pt) (q ++ r) = lengthAt t (q ++ r) := by
  have hqr : q ++ r ≠ [] := by
    intro hcon
    exact hr (List.append_eq_nil.mp hcon).2
  have hdrop : (q ++ r).dropLast = q ++ r.dropLast := by
    rw [List.dropLast_append_of_ne_nil _ hr]
  unfold lengthAt
  rw [distalAt_setDistalAt_sub t q u hq pt r, distalAt_of_valid t q u hq r]
  unfold proximalAt
  rw [if_neg hqr, if_neg hqr, hdrop,
    distalAt_setDistalAt_sub t q u hq pt r.dropLast,
    distalAt_of_valid t q u hq r.dropLast]
  match hsr : subtreeAtT u r with
  | none => rfl
  | some sr =>
    have hsp : ∃ sp, subtreeAtT u r.dropLast = some sp := by
      have hsplit : subtreeAtT u r =
          (subtreeAtT u r.dropLast).bind (fun w => subtreeAtT w [r.getLast hr]) := by
        conv_lhs => rw [← List.dropLast_append_getLast hr]
        exact subtreeAt_appendT u r.dropLast [r.getLast hr]
      rw [hsplit] at hsr
      match hdl : subtreeAtT u r.dropLast with
      | some sp => exact ⟨sp, rfl⟩
      | none => rw [hdl] at hsr; cases hsr
    obtain ⟨sp, hsp⟩ := hsp
    rw [hsp]
    simp only [Option.map_some', Option.some_bind]
    rw [vsub_vadd_vadd]

theorem lengthAt_setDistalAt_frame (t : MTree ℝ) (q : List ℕ) (pt : V ℝ)
    (r : List ℕ) (h : pathLe q r = false) :
    lengthAt (setDistalAt t q pt) r = lengthAt t r := by
  unfold lengthAt
  rw [distalAt_setDistalAt_frame t q pt r h,
    proximalAt_setDistalAt_frame t q pt r]
  intro hr
  by_contra hc
  have hb : pathLe q r.dropLast = true := by
    revert hc
    cases pathLe q r.dropLast <;> simp
  rw [pathLe_dropLast q r hr hb] at h
  cases h

theorem distalAt_setDistalAt_self (t : MTree ℝ) (q : List ℕ) (u : SegTree ℝ)
    (hq : subtreeAtT t.rootSeg q = some u) (pt : V ℝ) :
    distalAt (setDistalAt t q pt) q = some pt := by
  have h := distalAt_setDistalAt_sub t q u hq pt []
  rw [List.append_nil] at h
  rw [h, subtreeAtT]
  simp only [Option.map_some']
  rw [vadd_vsub_cancel]

theorem lengthAt_setDistalAt_self (t : MTree ℝ) (q : List ℕ) (u : SegTree ℝ)
    (hq : subtreeAtT t.rootSeg q = some u) (pt : V ℝ) :
    lengthAt (setDistalAt t q pt) q =
      (proximalAt t q).map (fun pr => norm3 (vsub pt pr)) := by
  unfold lengthAt
  rw [distalAt_setDistalAt_self t q u hq pt, proximalAt_setDistalAt_self,
    Option.some_bind]

/-- C2: setting `distal` of the segment at path `q` to `pt` (i) shifts the
distal point of the segment and of every descendant by the single
displacement `pt - distal`, (ii) leaves the length of every strict
descendant unchanged, (iii) leaves the distal point and length of every
segment outside the subtree unchanged, and (iv) changes the displaced
segment's own length to the distance from its (unchanged) proximal point to
`pt` — so only the displaced segment's length changes. -/
theorem distal_setter_spec (t : MTree ℝ) (q : List ℕ) (u : SegTree ℝ)
    (pt : V ℝ) (hq : subtreeAtT t.rootSeg q = some u) :
    (∀ r, distalAt (setDistalAt t q pt) (q ++ r) =
        (distalAt t (q ++ r)).map (fun v => vadd v (vsub pt u.xyz))) ∧
    (∀ r, r ≠ [] →
        lengthAt (setDistalAt t q pt) (q ++ r) = lengthAt t (q ++ r)) ∧
    (∀ r, pathLe q r = false →
        distalAt (setDistalAt t q pt) r = distalAt t r ∧
        lengthAt (setDistalAt t q pt) r = lengthAt t r) ∧
    lengthAt (setDistalAt t q pt) q =
      (proximalAt t q).map (fun pr => norm3 (vsub pt pr)) :=
  ⟨fun r => distalAt_setDistalAt_shift t q u hq pt r,
   fun r hr => lengthAt_setDistalAt_desc t q u hq pt r hr,
   fun r hr => ⟨distalAt_setDistalAt_frame t q pt r hr,
     lengthAt_setDistalAt_frame t q pt r hr⟩,
   lengthAt_setDistalAt_self t q u hq pt⟩

end DistalSetter

/-- C6: on a segment whose proximal and distal points differ, setting the
length to a positive target `L` and reading the `length` getter afterwards
returns exactly `L`, and the segment's proximal point is unchanged by the
assignment. -/
theorem length_setter_spec (t : MTree ℝ) (q : List ℕ) (u : SegTree ℝ)
    (pr : V ℝ) (L : ℝ) (hq : subtreeAtT t.rootSeg q = some u)
    (hpr : proximalAt t q = some pr) (hne : u.xyz ≠ pr) (hL : 0 < L) :
    lengthAt (setLengthAt t q L) q = some L ∧
    proximalAt (setLengthAt t q L) q = some pr := by
  have hd : distalAt t q = some u.xyz := by
    unfold distalAt
    rw [hq]
    rfl
  have hv : vsub u.xyz pr ≠ vzero := fun hcon =>
    hne ((vsub_eq_vzero_iff _ _).mp hcon)
  have hnv : 0 < norm3 (vsub u.xyz pr) := norm3_pos _ hv
  have hset : setLengthAt t q L =
      setDistalAt t q
        (vadd pr (smul (L / norm3 (vsub u.xyz pr)) (vsub u.xyz pr))) := by
    unfold setLengthAt
    rw [hd, hpr]
  constructor
  · rw [hset, lengthAt_setDistalAt_self t q u hq, hpr, Option.map_some']
    congr 1
    rw [vsub_vadd_cancel, norm3_smul,
      abs_of_nonneg (by positivity : (0:ℝ) ≤ L / norm3 (vsub u.xyz pr)),
      div_mul_cancel₀ _ (ne_of_gt hnv)]
  · rw [hset, proximalAt_setDistalAt_self, hpr]

theorem length_setter_spec_witness :
    subtreeAtT tC2.rootSeg [] = some tC2.rootSeg ∧
    proximalAt tC2 [] = some ((0:ℝ), (0:ℝ), (0:ℝ)) ∧
    tC2.rootSeg.xyz ≠ ((0:ℝ), (0:ℝ), (0:ℝ)) ∧
    (0:ℝ) < 7 ∧
    lengthAt (setLengthAt tC2 [] 7) [] = some 7 ∧
    proximalAt (setLengthAt tC2 [] 7) [] = some ((0:ℝ), (0:ℝ), (0:ℝ)) := by
  have hq : subtreeAtT tC2.rootSeg [] = some tC2.rootSeg := rfl
  have hpr : proximalAt tC2 [] = some ((0:ℝ), (0:ℝ), (0:ℝ)) := rfl
  have hne : tC2.rootSeg.xyz ≠ ((0:ℝ), (0:ℝ), (0:ℝ)) := by
    intro hcon
    have h1 : (3:ℝ) = 0 := congrArg Prod.fst hcon
    norm_num at h1
  have h := length_setter_spec tC2 [] tC2.rootSeg ((0:ℝ), (0:ℝ), (0:ℝ)) 7 hq
    hpr hne (by norm_num)
  exact ⟨hq, hpr, hne, by norm_num, h.1, h.2⟩

theorem distal_setter_spec_witness :
    subtreeAtT tC2.rootSeg [] = some tC2.rootSeg ∧
    ((∀ r, distalAt (setDistalAt tC2 [] ((1:ℝ), (1:ℝ), (1:ℝ))) ([] ++ r) =
        (distalAt tC2 ([] ++ r)).map
          (fun v => vadd v (vsub ((1:ℝ), (1:ℝ), (1:ℝ)) tC2.rootSeg.xyz))) ∧
      (∀ r, r ≠ [] →
        lengthAt (setDistalAt tC2 [] ((1:ℝ), (1:ℝ), (1:ℝ))) ([] ++ r) =
          lengthAt tC2 ([] ++ r)) ∧
      (∀ r, pathLe [] r = false →
        distalAt (setDistalAt tC2 [] ((1:ℝ), (1:ℝ), (1:ℝ))) r =
            distalAt tC2 r ∧
          lengthAt (setDistalAt tC2 [] ((1:ℝ), (1:ℝ), (1:ℝ))) r =
            lengthAt tC2 r) ∧
      lengthAt (setDistalAt tC2 [] ((1:ℝ), (1:ℝ), (1:ℝ))) [] =
        (proximalAt tC2 []).map
          (fun pr => norm3 (vsub ((1:ℝ), (1:ℝ), (1:ℝ)) pr))) :=
  ⟨rfl, distal_setter_spec tC2 [] tC2.rootSeg ((1:ℝ), (1:ℝ), (1:ℝ)) rfl⟩

theorem lambda_f_pos (diameter Ra cm freq : ℝ) (hd : 0 < diameter)
    (hRa : 0 < Ra) (hcm : 0 < cm) (hf : 0 < freq) :
    0 < lambda_f diameter Ra cm freq := by
  unfold lambda_f
  have hpi := Real.pi_pos
  have harg : 0 < diameter / (4 * Real.pi * freq * Ra * cm) := by positivity
  positivity

theorem d_lambda_rule_eq_floor (length diameter Ra cm freq d_lambda : ℝ)
    (hlen : 0 ≤ length) (hd : 0 < diameter) (hf : 0 < freq) (hRa : 0 < Ra)
    (hcm : 0 < cm) (hdl : 0 < d_lambda) :
    d_lambda_rule length diameter Ra cm freq d_lambda =
      ⌊(length / (d_lambda * lambda_f diameter Ra cm freq) + 0.9) / 2⌋ * 2 + 1 := by
  have hL := lambda_f_pos diameter Ra cm freq hd hRa hcm hf
  have hx : 0 ≤ length / (d_lambda * lambda_f diameter Ra cm freq) :=
    div_nonneg hlen (mul_pos hdl hL).le
  unfold d_lambda_rule pyInt
  rw [if_pos (by linarith : (0:ℝ) ≤
    (length / (d_lambda * lambda_f diameter Ra cm freq) + 0.9) / 2)]

/-- C3: on a non-negative length and positive diameter, frequency, axial
resistance, membrane capacitance and `d_lambda`, `d_lambda_rule` returns a
positive odd integer; with everything else fixed the returned count never
decreases when the length grows, and never decreases when `d_lambda`
shrinks. -/
theorem d_lambda_rule_spec
    (length diameter Ra cm freq d_lambda length2 d_lambda2 : ℝ)
    (hlen : 0 ≤ length) (hd : 0 < diameter) (hf : 0 < freq) (hRa : 0 < Ra)
    (hcm : 0 < cm) (hdl : 0 < d_lambda) (hlen2 : length ≤ length2)
    (hdl2 : 0 < d_lambda2) (hdl21 : d_lambda2 ≤ d_lambda) :
    (Odd (d_lambda_rule length diameter Ra cm freq d_lambda) ∧
      1 ≤ d_lambda_rule length diameter Ra cm freq d_lambda) ∧
    d_lambda_rule length diameter Ra cm freq d_lambda ≤
      d_lambda_rule length2 diameter Ra cm freq d_lambda ∧
    d_lambda_rule length diameter Ra cm freq d_lambda ≤
      d_lambda_rule length diameter Ra cm freq d_lambda2 := by
  have hL := lambda_f_pos diameter Ra cm freq hd hRa hcm hf
  set L := lambda_f diameter Ra cm freq with hLdef
  have e1 := d_lambda_rule_eq_floor length diameter Ra cm freq d_lambda
    hlen hd hf hRa hcm hdl
  have e2 := d_lambda_rule_eq_floor length2 diameter Ra cm freq d_lambda
    (le_trans hlen hlen2) hd hf hRa hcm hdl
  have e3 := d_lambda_rule_eq_floor length diameter Ra cm freq d_lambda2
    hlen hd hf hRa hcm hdl2
  rw [← hLdef] at e1 e2 e3
  refine ⟨⟨?_, ?_⟩, ?_, ?_⟩
  · rw [e1]
    exact ⟨⌊(length / (d_lambda * L) + 0.9) / 2⌋, by ring⟩
  · rw [e1]
    have hx : 0 ≤ length / (d_lambda * L) := div_nonneg hlen (mul_pos hdl hL).le
    have hfl : 0 ≤ ⌊(length / (d_lambda * L) + 0.9) / 2⌋ :=
      Int.floor_nonneg.mpr (by linarith)
    omega
  · rw [e1, e2]
    have hxy : length / (d_lambda * L) ≤ length2 / (d_lambda * L) :=
      (div_le_div_iff_of_pos_right (mul_pos hdl hL)).mpr hlen2
    have hfl : ⌊(length / (d_lambda * L) + 0.9) / 2⌋ ≤
        ⌊(length2 / (d_lambda * L) + 0.9) / 2⌋ :=
      Int.floor_le_floor (by linarith)
    omega
  · rw [e1, e3]
    have hxy : length / (d_lambda * L) ≤ length / (d_lambda2 * L) := by
      gcongr
    have hfl : ⌊(length / (d_lambda * L) + 0.9) / 2⌋ ≤
        ⌊(length / (d_lambda2 * L) + 0.9) / 2⌋ :=
      Int.floor_le_floor (by linarith)
    omega

theorem d_lambda_rule_spec_witness :
    (Odd (d_lambda_rule 100 1 100 1 100 0.1) ∧
      1 ≤ d_lambda_rule 100 1 100 1 100 0.1) ∧
    d_lambda_rule 100 1 100 1 100 0.1 ≤ d_lambda_rule 200 1 100 1 100 0.1 ∧
    d_lambda_rule 100 1 100 1 100 0.1 ≤ d_lambda_rule 100 1 100 1 100 0.05 :=
  d_lambda_rule_spec 100 1 100 1 100 0.1 200 0.05 (by norm_num) (by norm_num)
    (by norm_num) (by norm_num) (by norm_num) (by norm_num) (by norm_num)
    (by norm_num) (by norm_num)

theorem mergeStep_skip [Field α] (sqrtFn : α → α)
    (acc : MTree α × List (SegTree α))
    (g : (Option String × Finset String) × List (Branch α))
    (h : g.2.length ≤ 1) : mergeStep sqrtFn acc g = acc := by
  unfold mergeStep
  rw [if_neg (by omega)]

theorem foldl_mergeStep_skip [Field α] (sqrtFn : α → α)
    (gs : List ((Option String × Finset String) × List (Branch α)))
    (acc : MTree α × List (SegTree α))
    (h : ∀ g ∈ gs, g.2.length ≤ 1) :
    gs.foldl (mergeStep sqrtFn) acc = acc := by
  induction gs generalizing acc with
  | nil => rfl
  | cons g rest ih =>
    rw [List.foldl_cons, mergeStep_skip sqrtFn acc g (h g (by simp))]
    exact ih acc (fun g' hg' => h g' (List.mem_cons_of_mem _ hg'))

/-- C4 counterexample: a tree with two leaf branches, each internally
homogeneous, that differ from each other in class membership — the situation
the claim says raises `IrreducibleMorphology`.  `merge_leaves` does not
raise on it: the irreducibility exception fires only when no leaf branch is
internally class-consistent, not when the branches differ pairwise. -/
theorem merge_pairwise_distinct_no_raise :
    ((leafBranches tC4).map Branch.headClasses).length = 2 ∧
    ((leafBranches tC4).map Branch.headClasses).getD 0 ∅ ≠
      ((leafBranches tC4).map Branch.headClasses).getD 1 ∅ ∧
    (∀ b ∈ leafBranches tC4, b.homogB = true) ∧
    mergeRaises (fun x => x) tC4 = false := by decide

/-- C4 (amended): `merge_leaves` raises `IrreducibleMorphologyException`
exactly when every leaf-terminating branch is internally heterogeneous in
class membership (some segment of the branch has a class set differing from
the branch start's); the raise happens before any mutation.  When candidate
branches remain and every `(parent, class-set)` group holds at most one
branch — in particular when the leaf branches differ pairwise — the call
returns without raising, the tree is left unmutated and no merged segment
is created. -/
theorem mergeLeaves_raises_iff [Field α] (sqrtFn : α → α) (t : MTree α) :
    ((∃ e, mergeLeaves sqrtFn t = .error e) ↔
      ∀ b ∈ leafBranches t, b.homogB = false) ∧
    ((mergeCandidates t).isEmpty = false →
      (∀ g ∈ pyGroupBy Branch.keyB (mergeCandidates t), g.2.length ≤ 1) →
      mergeLeaves sqrtFn t = .ok (t, [])) := by
  constructor
  · by_cases h : (mergeCandidates t).isEmpty
    · constructor
      · intro _
        intro b hb
        have hnil : mergeCandidates t = [] := List.isEmpty_iff.mp h
        have := List.filter_eq_nil_iff.mp hnil b hb
        revert this
        cases b.homogB <;> simp
      · intro _
        exact ⟨_, by unfold mergeLeaves; rw [if_pos h]⟩
    · constructor
      · intro ⟨e, he⟩
        unfold mergeLeaves at he
        rw [if_neg h] at he
        cases he
      · intro hall
        exfalso
        have hne : mergeCandidates t ≠ [] := fun hnil => h (by rw [hnil]; rfl)
        obtain ⟨b, hb⟩ := List.exists_mem_of_ne_nil _ hne
        have hmem := List.mem_of_mem_filter hb
        have hpos := List.of_mem_filter hb
        rw [hall b hmem] at hpos
        cases hpos
  · intro h1 h2
    unfold mergeLeaves
    rw [if_neg (by rw [h1]; exact fun hcon => nomatch hcon)]
    rw [foldl_mergeStep_skip sqrtFn _ _ h2]

theorem mergeLeaves_raises_iff_witness :
    (mergeCandidates tC4).isEmpty = false ∧
    mergeLeaves (fun x => x) tC4 = .ok (tC4, []) :=
  ⟨by decide, (mergeLeaves_raises_iff (fun x => x) tC4).2 (by decide) (by decide)⟩

/-- C1: the merged replacement segment constructed for a group of more than
one sibling branch preserves the summed `diameter * length` of all merged
segments: its diameter is `total_surface_area / average_length` and its
distal point lies along the parent's direction at distance
`average_length` from the parent's distal point (its proximal point), so
the product `diameter * length` collapses to `total_surface_area`, which is
exactly `sum(seg.length * seg.diameter)` over the merged branches. -/
theorem merge_surface_area_law (key : Option String × Finset String)
    (pprox pdist : V ℝ) (sibs : List (Branch ℝ))
    (_h2 : 2 ≤ sibs.length)
    (hp : vsub pdist pprox ≠ vzero)
    (ha : 0 < averageLength Real.sqrt sibs) :
    (mergedSegment Real.sqrt key pprox pdist sibs).diameter *
      norm3 (vsub (mergedSegment Real.sqrt key pprox pdist sibs).xyz pdist) =
      totalSurfaceArea Real.sqrt sibs := by
  have hv : 0 < norm3 (vsub pdist pprox) := norm3_pos _ hp
  have hxyz : (mergedSegment Real.sqrt key pprox pdist sibs).xyz =
      vadd pdist (mergedDisp Real.sqrt pprox pdist sibs) := rfl
  have hdiam : (mergedSegment Real.sqrt key pprox pdist sibs).diameter =
      mergedDiameter Real.sqrt sibs / 2 * 2 := rfl
  rw [hxyz, hdiam, vsub_vadd_cancel]
  have hdisp : mergedDisp Real.sqrt pprox pdist sibs =
      smul (averageLength Real.sqrt sibs / norm3 (vsub pdist pprox))
        (vsub pdist pprox) := rfl
  rw [hdisp, norm3_smul,
    abs_of_nonneg (by positivity :
      (0:ℝ) ≤ averageLength Real.sqrt sibs / norm3 (vsub pdist pprox)),
    div_mul_cancel₀ _ (ne_of_gt hv), mergedDiameter]
  field_simp
  ring

theorem merge_surface_area_law_witness :
    2 ≤ sibsC1.length ∧
    vsub ((3:ℝ), (4:ℝ), (0:ℝ)) ((0:ℝ), (0:ℝ), (0:ℝ)) ≠ vzero ∧
    0 < averageLength Real.sqrt sibsC1 ∧
    (mergedSegment Real.sqrt (some "p", ∅) (0, 0, 0) (3, 4, 0) sibsC1).diameter *
      norm3 (vsub
        (mergedSegment Real.sqrt (some "p", ∅) (0, 0, 0) (3, 4, 0) sibsC1).xyz
        (3, 4, 0)) =
      totalSurfaceArea Real.sqrt sibsC1 := by
  have h2 : 2 ≤ sibsC1.length := le_refl 2
  have hp : vsub ((3:ℝ), (4:ℝ), (0:ℝ)) ((0:ℝ), (0:ℝ), (0:ℝ)) ≠ vzero := by
    simp only [vsub, vzero, Prod.ext_iff, Prod.mk.injEq]
    norm_num
  have havg : averageLength Real.sqrt sibsC1 = 1 := by
    simp only [averageLength, sibsC1, branchTotalLen, segLengthDiams,
      SegTree.xyz, SegTree.diameter, vsub, sqnorm, List.map, List.sum_cons,
      List.sum_nil, List.length]
    norm_num [Real.sqrt_one]
  have ha : 0 < averageLength Real.sqrt sibsC1 := by rw [havg]; norm_num
  exact ⟨h2, hp, ha, merge_surface_area_law (some "p", ∅) _ _ sibsC1 h2 hp ha⟩

/-- C7: `set_component` appends a point-process component unconditionally
(multiple point components, even of equal class name, may coexist); a
non-point component whose class name clashes with exactly one existing
component raises unless `overwrite` is requested, in which case the clashing
component is removed and the new one appended. -/
theorem set_component_spec (comps : List Component) (pt dc c : Component)
    (hpt : pt.isPointProcess = true) (hdc : dc.isPointProcess = false)
    (hc : comps.filter (fun x => x.className == dc.className) = [c]) :
    (∀ overwrite, setComponent comps pt overwrite = .ok (comps ++ [pt])) ∧
    (∃ e, setComponent comps dc false = .error e) ∧
    setComponent comps dc true = .ok ((comps.erase c) ++ [dc]) := by
  refine ⟨?_, ?_, ?_⟩
  · intro overwrite
    unfold setComponent
    rw [if_pos hpt]
  · refine ⟨"Clash of import names in setting biophysics components", ?_⟩
    unfold setComponent
    rw [if_neg (by rw [hdc]; exact Bool.false_ne_true), hc]
    rfl
  · unfold setComponent
    rw [if_neg (by rw [hdc]; exact Bool.false_ne_true), hc]
    rfl

theorem set_component_spec_witness :
    (∀ overwrite,
      setComponent [⟨"Ra default", "Ra", false⟩] ⟨"syn", "ExpSyn", true⟩
        overwrite =
        .ok ([⟨"Ra default", "Ra", false⟩] ++ [⟨"syn", "ExpSyn", true⟩])) ∧
    (∃ e, setComponent [⟨"Ra default", "Ra", false⟩] ⟨"Ra new", "Ra", false⟩
        false = .error e) ∧
    setComponent [⟨"Ra default", "Ra", false⟩] ⟨"Ra new", "Ra", false⟩ true =
      .ok (([⟨"Ra default", "Ra", false⟩].erase ⟨"Ra default", "Ra", false⟩) ++
        [⟨"Ra new", "Ra", false⟩]) :=
  set_component_spec [⟨"Ra default", "Ra", false⟩] ⟨"syn", "ExpSyn", true⟩
    ⟨"Ra new", "Ra", false⟩ ⟨"Ra default", "Ra", false⟩ rfl rfl (by decide)

theorem foldl_union_mem (l : List PySeg) (init : Finset String) (x : String)
    (h : x ∈ init ∨ ∃ s ∈ l, x ∈ s.classes) :
    x ∈ l.foldl (fun acc s => acc ∪ s.classes) init := by
  induction l generalizing init with
  | nil =>
    rcases h with h | ⟨s, hs, _⟩
    · exact h
    · cases hs
  | cons a l ih =>
    rw [List.foldl_cons]
    apply ih
    rcases h with h | ⟨s, hs, hx⟩
    · exact Or.inl (Finset.mem_union_left _ h)
    · rcases List.mem_cons.mp hs with rfl | hs'
      · exact Or.inl (Finset.mem_union_right _ hx)
      · exact Or.inr ⟨s, hs', hx⟩

theorem mem_overlapping (tbl : ClassTable) (c x : String) (s : PySeg)
    (hs : s ∈ membersOf tbl c) (hx : x ∈ s.classes) :
    x ∈ overlappingClasses tbl c := by
  unfold overlappingClasses
  match hm : membersOf tbl c with
  | [] => rw [hm] at hs; cases hs
  | m :: rest =>
    rw [hm] at hs
    apply foldl_union_mem
    rcases List.mem_cons.mp hs with rfl | hs'
    · exact Or.inl hx
    · exact Or.inr ⟨s, hs', hx⟩

theorem offendingSegs_comm (tbl : ClassTable) (c1 c2 : String) :
    offendingSegs tbl c1 c2 = offendingSegs tbl c2 c1 := by
  unfold offendingSegs
  congr 1
  apply List.filter_congr
  intro s _
  exact decide_eq_decide.mpr and_comm

theorem findConflictInner_isSome (tbl : ClassTable) (c1 : String)
    (l : List String) (c2 : String) (h2 : c2 ∈ l) (hne : c1 ≠ c2)
    (hd : dupsOf tbl c1 c2 ≠ []) :
    ∃ conf, findConflictInner tbl c1 l = some conf := by
  induction l with
  | nil => cases h2
  | cons c rest ih =>
    rw [findConflictInner]
    by_cases hc : c1 ≠ c ∧ dupsOf tbl c1 c ≠ []
    · rw [if_pos hc]
      exact ⟨_, rfl⟩
    · rw [if_neg hc]
      rcases List.mem_cons.mp h2 with rfl | h2'
      · exact absurd ⟨hne, hd⟩ hc
      · exact ih h2'

theorem findConflictPair_isSome (tbl : ClassTable) (outer all : List String)
    (c1 c2 : String) (h1 : c1 ∈ outer) (h2 : c2 ∈ all) (hne : c1 ≠ c2)
    (hd : dupsOf tbl c1 c2 ≠ []) :
    ∃ conf, findConflictPair tbl outer all = some conf := by
  induction outer with
  | nil => cases h1
  | cons c rest ih =>
    rw [findConflictPair]
    match hinner : findConflictInner tbl c all with
    | some conf => exact ⟨conf, rfl⟩
    | none =>
      rcases List.mem_cons.mp h1 with rfl | h1'
      · obtain ⟨conf, hconf⟩ := findConflictInner_isSome tbl c1 all c2 h2 hne hd
        rw [hconf] at hinner
        cases hinner
      · exact ih h1'

theorem findConflictInner_sound (tbl : ClassTable) (c1 : String)
    (l : List String) (conf : Conflict)
    (h : findConflictInner tbl c1 l = some conf) :
    ∃ c2, c1 ≠ c2 ∧ dupsOf tbl c1 c2 ≠ [] ∧
      conf = ⟨dupsOf tbl c1 c2, (offendingSegs tbl c1 c2).take 10,
        10 < (offendingSegs tbl c1 c2).length, c1, c2⟩ := by
  induction l with
  | nil => rw [findConflictInner] at h; cases h
  | cons c rest ih =>
    rw [findConflictInner] at h
    by_cases hc : c1 ≠ c ∧ dupsOf tbl c1 c ≠ []
    · rw [if_pos hc] at h
      cases h
      exact ⟨c, hc.1, hc.2, rfl⟩
    · rw [if_neg hc] at h
      exact ih h

theorem findConflictPair_sound (tbl : ClassTable) (outer all : List String)
    (conf : Conflict) (h : findConflictPair tbl outer all = some conf) :
    ∃ c1 c2, c1 ≠ c2 ∧ dupsOf tbl c1 c2 ≠ [] ∧
      conf = ⟨dupsOf tbl c1 c2, (offendingSegs tbl c1 c2).take 10,
        10 < (offendingSegs tbl c1 c2).length, c1, c2⟩ := by
  induction outer with
  | nil => rw [findConflictPair] at h; cases h
  | cons c rest ih =>
    rw [findConflictPair] at h
    match hinner : findConflictInner tbl c all with
    | some conf' =>
      rw [hinner] at h
      cases h
      obtain ⟨c2, hne, hd, hconf⟩ := findConflictInner_sound tbl c all _ hinner
      exact ⟨c, c2, hne, hd, hconf⟩
    | none =>
      rw [hinner] at h
      exact ih h

/-- C5: with two distinct classes sharing at least one member segment, the
first holding an attribute named `p` and the second not, adding an attribute
named `p` to the second class raises the duplicate-attribute exception, and
the raised payload names the two classes (in one order or the other),
contains `p` among the clashing attribute names, and carries exactly the
first ten segments belonging to both classes (with the truncation marker
set exactly when more than ten offend). -/
theorem add_attribute_conflict (segs : List PySeg) (n1 n2 p : String)
    (a1 a2 : List String) (hne : n1 ≠ n2) (hp1 : p ∈ a1) (hp2 : p ∉ a2)
    (s : PySeg) (hs : s ∈ segs) (hs1 : n1 ∈ s.classes)
    (hs2 : n2 ∈ s.classes) :
    ∃ conf,
      addAttribute ⟨segs, [(n1, a1), (n2, a2)]⟩ n2 p =
        .error (.conflict conf) ∧
      ((conf.cname1 = n1 ∧ conf.cname2 = n2) ∨
        (conf.cname1 = n2 ∧ conf.cname2 = n1)) ∧
      p ∈ conf.dups ∧
      conf.sample =
        (offendingSegs ⟨segs, [(n1, a1), (n2, a2)]⟩ n1 n2).take 10 ∧
      (conf.truncated = true ↔
        10 < (offendingSegs ⟨segs, [(n1, a1), (n2, a2)]⟩ n1 n2).length) := by
  have hb21 : (n2 == n1) = false := beq_eq_false_iff_ne.mpr (Ne.symm hne)
  have ha2 : attrsOf ⟨segs, [(n1, a1), (n2, a2)]⟩ n2 = a2 := by
    simp [attrsOf, List.lookup, hb21]
  have hsetattr : setAttr [(n1, a1), (n2, a2)] n2 p =
      [(n1, a1), (n2, a2 ++ [p])] := by
    simp [setAttr, hne, Ne.symm hne]
  set tbl2 : ClassTable := ⟨segs, [(n1, a1), (n2, a2 ++ [p])]⟩ with htbl2
  have ha2' : attrsOf tbl2 n2 = a2 ++ [p] := by
    simp [attrsOf, List.lookup, hb21, htbl2]
  have ha1' : attrsOf tbl2 n1 = a1 := by
    simp [attrsOf, List.lookup, htbl2]
  have hother : ∀ c, attrsOf tbl2 c ≠ [] → c = n1 ∨ c = n2 := by
    intro c hc
    by_contra hcon
    push_neg at hcon
    apply hc
    simp [attrsOf, List.lookup, htbl2, beq_eq_false_iff_ne.mpr hcon.1,
      beq_eq_false_iff_ne.mpr hcon.2]
  have hdup12 : p ∈ dupsOf tbl2 n1 n2 := by
    unfold dupsOf
    rw [ha1', ha2']
    refine List.mem_filter.mpr ⟨hp1, ?_⟩
    simp
  have hdup21 : p ∈ dupsOf tbl2 n2 n1 := by
    unfold dupsOf
    rw [ha1', ha2']
    refine List.mem_filter.mpr ⟨by simp, by simpa using hp1⟩
  have hsmem : s ∈ membersOf tbl2 n2 := by
    refine List.mem_filter.mpr ⟨hs, by simpa using hs2⟩
  have hn1L : n1 ∈ (overlappingClasses tbl2 n2).sort (· ≤ ·) :=
    (Finset.mem_sort _).mpr (mem_overlapping tbl2 n2 n1 s hsmem hs1)
  have hn2L : n2 ∈ (overlappingClasses tbl2 n2).sort (· ≤ ·) :=
    (Finset.mem_sort _).mpr (mem_overlapping tbl2 n2 n2 s hsmem hs2)
  obtain ⟨conf, hconf⟩ := findConflictPair_isSome tbl2 _ _ n1 n2 hn1L hn2L hne
    (List.ne_nil_of_mem hdup12)
  have hcheck : checkDuplicateAttributes tbl2 n2 = some conf := hconf
  obtain ⟨c1, c2, hc12, hcdup, hcform⟩ :=
    findConflictPair_sound tbl2 _ _ conf hconf
  have hattr1 : attrsOf tbl2 c1 ≠ [] := by
    obtain ⟨a, ha⟩ := List.exists_mem_of_ne_nil _ hcdup
    exact List.ne_nil_of_mem (List.mem_of_mem_filter ha)
  have hattr2 : attrsOf tbl2 c2 ≠ [] := by
    obtain ⟨a, ha⟩ := List.exists_mem_of_ne_nil _ hcdup
    have := List.of_mem_filter ha
    exact List.ne_nil_of_mem (by simpa using this)
  have hrun : addAttribute ⟨segs, [(n1, a1), (n2, a2)]⟩ n2 p =
      .error (.conflict conf) := by
    unfold addAttribute
    rw [if_neg (by rw [ha2]; exact hp2)]
    have : setAttr [(n1, a1), (n2, a2)] n2 p = [(n1, a1), (n2, a2 ++ [p])] :=
      hsetattr
    simp only [this]
    rw [← htbl2, hcheck]
  have hpair : (c1 = n1 ∧ c2 = n2) ∨ (c1 = n2 ∧ c2 = n1) := by
    rcases hother c1 hattr1 with h1 | h1 <;>
      rcases hother c2 hattr2 with h2 | h2
    · exact absurd (h1.trans h2.symm) hc12
    · exact Or.inl ⟨h1, h2⟩
    · exact Or.inr ⟨h1, h2⟩
    · exact absurd (h1.trans h2.symm) hc12
  refine ⟨conf, hrun, ?_, ?_, ?_, ?_⟩
  · rw [hcform]
    rcases hpair with ⟨h1, h2⟩ | ⟨h1, h2⟩
    · exact Or.inl ⟨h1, h2⟩
    · exact Or.inr ⟨h1, h2⟩
  · rw [hcform]
    rcases hpair with ⟨h1, h2⟩ | ⟨h1, h2⟩
    · show p ∈ dupsOf tbl2 c1 c2
      rw [h1, h2]
      exact hdup12
    · show p ∈ dupsOf tbl2 c1 c2
      rw [h1, h2]
      exact hdup21
  · rw [hcform]
    show (offendingSegs tbl2 c1 c2).take 10 = _
    rcases hpair with ⟨h1, h2⟩ | ⟨h1, h2⟩
    · rw [h1, h2]
      rfl
    · rw [h1, h2, offendingSegs_comm]
      rfl
  · rw [hcform]
    show decide (10 < (offendingSegs tbl2 c1 c2).length) = true ↔ _
    rw [decide_eq_true_eq]
    rcases hpair with ⟨h1, h2⟩ | ⟨h1, h2⟩
    · rw [h1, h2]
      exact Iff.rfl
    · rw [h1, h2, offendingSegs_comm]
      exact Iff.rfl

theorem add_attribute_conflict_witness :
    ("A" : String) ≠ "B" ∧ ("gbar" : String) ∈ ["gbar"] ∧
    ("gbar" : String) ∉ ([] : List String) ∧
    (⟨"soma", {"A", "B"}⟩ : PySeg) ∈ [(⟨"soma", {"A", "B"}⟩ : PySeg)] ∧
    ("A" : String) ∈ (⟨"soma", {"A", "B"}⟩ : PySeg).classes ∧
    ("B" : String) ∈ (⟨"soma", {"A", "B"}⟩ : PySeg).classes ∧
    ∃ conf,
      addAttribute ⟨[⟨"soma", {"A", "B"}⟩], [("A", ["gbar"]), ("B", [])]⟩
          "B" "gbar" = .error (.conflict conf) ∧
      ((conf.cname1 = "A" ∧ conf.cname2 = "B") ∨
        (conf.cname1 = "B" ∧ conf.cname2 = "A")) ∧
      ("gbar" : String) ∈ conf.dups ∧
      conf.sample =
        (offendingSegs ⟨[⟨"soma", {"A", "B"}⟩], [("A", ["gbar"]), ("B", [])]⟩
          "A" "B").take 10 ∧
      (conf.truncated = true ↔
        10 < (offendingSegs
          ⟨[⟨"soma", {"A", "B"}⟩], [("A", ["gbar"]), ("B", [])]⟩
          "A" "B").length) :=
  ⟨by decide, by decide, by decide, by decide, by decide, by decide,
    add_attribute_conflict [⟨"soma", {"A", "B"}⟩] "A" "B" "gbar" ["gbar"] []
      (by decide) (by decide) (by decide) ⟨"soma", {"A", "B"}⟩ (by decide)
      (by decide) (by decide)⟩

/-- C9: evaluating `remove_children` on a segment with two children shows
the loop's index skipping over the list it is deleting from: the first
child is removed and detached, the iterator then stands past the end of the
shrunken list, and the second child remains attached with its parent link
intact — the children list is not emptied, contradicting the function's
evident intent of clearing all children. -/
theorem remove_children_failing_input :
    removeChildren ["a", "b"] = (["b"], ["a"]) ∧
    removeChildren ["a", "b", "c", "d"] = (["b", "d"], ["a", "c"]) ∧
    removeChildren ["only"] = ([], ["only"]) := by decide

/-- C10: both default-constructed segments read their class set from the one
set object created when `__init__` was defined; after `add_members` targets
only the first segment, the second segment's class set has gained the class
as well, instead of staying empty. -/
theorem shared_default_classes_leak :
    sharedDefaultScenario.1 = {"newclass"} ∧
    sharedDefaultScenario.2 = {"newclass"} ∧
    sharedDefaultScenario.2 ≠ (∅ : Finset String) := by decide

end Nineline
